import Mathlib

/-!
Shallow embedding of the core of `boule` (src/src/main.rs): the board state
(`State`), its construction, query and move primitives, the win predicate,
and the history ledger logic of `BouleApp::update`.

Conventions:
* Rust `usize` values are modelled as `Nat` (the program never subtracts
  except via `saturating_sub`, which is `Nat` subtraction).
* `Vec<Slot>` is a `List Slot`.  Rust indexing `self.slots[i]` panics when
  `i` is out of range; `State.slotChecked` returns `none` exactly in that
  case, and the total `State.slot` used by the other operations reads
  through `getD` (it agrees with the Rust code whenever the index is in
  range, which the theorems' hypotheses guarantee).
* The shuffle in `State::new` is modelled by parameterising construction
  over the shuffled prefix: `State.mkNew cc cap pre` where `pre` is any
  permutation of the deterministically filled region (hypothesis
  `pre.Perm (fillCols (cc - 1) cap)` in the theorems).  The tail of the
  slot vector — the region the shuffle does not touch — stays `Empty`.
* `BTreeSet<usize>` is modelled as a strictly sorted `List Nat`
  (`insertSorted` is set insertion; list order is the ascending iteration
  order), and the `HashMap` keyed by configuration as a total function
  `(Nat × Nat) → List Nat` defaulting to `[]` (matching `or_default`).
-/

/-- A board cell: `Empty` or `Ball(color_index)` (src/src/main.rs, `enum Slot`). -/
inductive Slot where
  | empty : Slot
  | ball (colorIdx : Nat) : Slot
deriving DecidableEq, Repr

/-- The board: `struct State` of src/src/main.rs.  `slots` is column-major:
cell `(row, column)` lives at index `column * column_capacity + row`. -/
structure State where
  column_count : Nat
  column_capacity : Nat
  play_count : Nat
  slots : List Slot
deriving DecidableEq, Repr

/-- The filled region built by the loops of `State::new`: columns
`0 .. n-1` (column-major), column `col` holding `cap` copies of
`Slot.ball col`. -/
def fillCols : Nat → Nat → List Slot
  | 0, _ => []
  | n + 1, cap => fillCols n cap ++ List.replicate cap (Slot.ball n)

/-- `State::new(column_count, column_capacity)`, with the random shuffle
modelled by the parameter `pre`: the theorems quantify over every `pre`
that is a permutation of `fillCols (cc - 1) cap`, i.e. every possible
outcome of shuffling the filled region `slots[0 .. color_count * cap]`.
The remaining `cc * cap - (cc - 1) * cap` slots are the untouched tail,
left `Empty` exactly as the Rust code leaves them. -/
def State.mkNew (cc cap : Nat) (pre : List Slot) : State :=
  { column_count := cc
    column_capacity := cap
    play_count := 0
    slots := pre ++ List.replicate (cc * cap - (cc - 1) * cap) Slot.empty }

/-- Flat index of cell `(row, column)`: `column * self.column_capacity + row`. -/
def State.slotIdx (s : State) (row column : Nat) : Nat :=
  column * s.column_capacity + row

/-- `State::slot` indexes `self.slots` directly, so an out-of-range index is
a Rust panic; `none` models that panic. -/
def State.slotChecked (s : State) (row column : Nat) : Option Slot :=
  s.slots.get? (s.slotIdx row column)

/-- Total reading of cell `(row, column)`; agrees with `State::slot`
whenever the access is in range (i.e. whenever `slotChecked` is `some`). -/
def State.slot (s : State) (row column : Nat) : Slot :=
  (s.slotChecked row column).getD Slot.empty

/-- `State::slot_mut` followed by an assignment: writes cell `(row, column)`. -/
def State.setSlot (s : State) (row column : Nat) (v : Slot) : State :=
  { s with slots := s.slots.set (s.slotIdx row column) v }

/-- `State::first_ball(column)`: the first row from the open (top) end whose
slot is not `Empty`; `None` when the column is empty. -/
def State.first_ball (s : State) (column : Nat) : Option Nat :=
  (List.range s.column_capacity).find? (fun row => s.slot row column != Slot.empty)

/-- `State::first_empty(column)`: scanning rows in reverse (`(0..cap).rev()`),
the first `Empty` slot found, i.e. the largest row index holding `Empty`;
`None` when the column is full. -/
def State.first_empty (s : State) (column : Nat) : Option Nat :=
  (List.range s.column_capacity).reverse.find? (fun row => s.slot row column == Slot.empty)

/-- `State::is_top(row, column)`: every row above is `Empty` and this row is not. -/
def State.is_top (s : State) (row column : Nat) : Bool :=
  (List.range row).all (fun r => s.slot r column == Slot.empty)
    && (s.slot row column != Slot.empty)

/-- `State::move_ball(from_column, to_column)`. -/
def State.move_ball (s : State) (from_column to_column : Nat) : State :=
  if from_column = to_column then s
  else
    match s.first_ball from_column, s.first_empty to_column with
    | some from_row, some to_row =>
      let ball := s.slot from_row from_column
      let s1 := s.setSlot to_row to_column ball
      let s2 := s1.setSlot from_row from_column Slot.empty
      { s2 with play_count := s2.play_count + 1 }
    | _, _ => s

/-- `State::is_winning`: `Some(play_count)` when every column's rows
`1 .. cap` equal its row `0`, else `None`. -/
def State.is_winning (s : State) : Option Nat :=
  if (List.range s.column_count).all (fun col =>
      let first := s.slot 0 col
      (List.range' 1 (s.column_capacity - 1)).all (fun row => s.slot row col == first))
  then some s.play_count
  else none

/-- Well-formedness: the slot vector has exactly `column_count * column_capacity`
entries, as every `State` built by the program does. -/
def State.wf (s : State) : Prop :=
  s.slots.length = s.column_count * s.column_capacity

/-- Board states reachable by the program: a fresh board (any shuffle
outcome), followed by any sequence of `move_ball` calls with in-bounds
column arguments. -/
inductive Reachable : State → Prop where
  | base (cc cap : Nat) (pre : List Slot) (hpre : pre.Perm (fillCols (cc - 1) cap)) :
      Reachable (State.mkNew cc cap pre)
  | step (s : State) (fc tc : Nat) (hf : fc < s.column_count)
      (ht : tc < s.column_count) (hs : Reachable s) :
      Reachable (s.move_ball fc tc)

/-- Gravity discipline: in every column, non-empty slots are downward closed
(toward larger row indices, the closed bottom end), i.e. Empty slots occur
only at the open end above the topmost ball. -/
def GravityInv (s : State) : Prop :=
  ∀ col < s.column_count, ∀ r1 r2 : Nat, r1 ≤ r2 → r2 < s.column_capacity →
    s.slot r1 col ≠ Slot.empty → s.slot r2 col ≠ Slot.empty

/-- Spec-side definition of `first_empty` as the claim words it: the `Empty`
row nearest the open (top) end, i.e. the least row index holding `Empty`.
Written from the spec sentence, to be compared with `State.first_empty`. -/
def State.firstEmptyNearestTop (s : State) (column : Nat) : Option Nat :=
  (List.range s.column_capacity).find? (fun row => s.slot row column == Slot.empty)

/-- The history ledger: `HashMap<(usize, usize), BTreeSet<usize>>`, as a
total function from configuration keys to ascending duplicate-free score
lists (`[]` for absent keys, matching `or_default`). -/
def History : Type := (Nat × Nat) → List Nat

/-- The empty ledger (`HashMap::new()`). -/
def emptyHistory : History := fun _ => []

/-- `BTreeSet::insert` viewed through the ascending iteration order:
insert into a sorted duplicate-free list, idempotently. -/
def insertSorted (x : Nat) : List Nat → List Nat
  | [] => [x]
  | y :: ys =>
    if x < y then x :: y :: ys
    else if x = y then y :: ys
    else y :: insertSorted x ys

/-- `self.history.entry(key).or_default().insert(score)`. -/
def recordStep (h : History) (key : Nat × Nat) (score : Nat) : History :=
  fun k => if k = key then insertSorted score (h k) else h k

/-- Querying the ledger for a configuration: the ascending score sequence
(`history.get(&key)` iterated in order; absent keys give the empty view). -/
def queryHistory (h : History) (key : Nat × Nat) : List Nat :=
  h key

/-- The history-recording step of `BouleApp::update` (lines 338-351): if the
old state was not winning and the new state is winning with play count
`pc`, insert `pc` under the configuration key; otherwise leave the ledger
unchanged. -/
def updateRecord (oldState newState : Option State) (key : Nat × Nat) (h : History) :
    History :=
  if (oldState.bind State.is_winning) = none then
    match newState.bind State.is_winning with
    | some pc => recordStep h key pc
    | none => h
  else h

/-! ## General list helpers -/

theorem getD_set_self {α : Type} (l : List α) (i : Nat) (h : i < l.length) (v d : α) :
    (l.set i v).getD i d = v := by
  rw [List.getD_eq_getElem?_getD, List.getElem?_set_self h]
  rfl

theorem getD_set_ne {α : Type} (l : List α) {i j : Nat} (h : i ≠ j) (v d : α) :
    (l.set i v).getD j d = l.getD j d := by
  rw [List.getD_eq_getElem?_getD, List.getElem?_set_ne h, ← List.getD_eq_getElem?_getD]

theorem getD_replicate {α : Type} {n i : Nat} (a d : α) (h : i < n) :
    (List.replicate n a).getD i d = a := by
  rw [List.getD_eq_getElem (List.replicate n a) d (by simpa using h)]
  exact List.getElem_replicate ..

theorem find?_range_some {p : Nat → Bool} :
    ∀ {n m : Nat}, (List.range n).find? p = some m →
      m < n ∧ p m = true ∧ ∀ k < m, p k = false := by
  intro n
  induction n with
  | zero => intro m h; simp [List.range_zero] at h
  | succ n ih =>
    intro m h
    rw [List.range_succ, List.find?_append] at h
    cases hfind : (List.range n).find? p with
    | some a =>
      rw [hfind] at h
      simp only [Option.or_some] at h
      obtain rfl : a = m := by injection h
      obtain ⟨h1, h2, h3⟩ := ih hfind
      exact ⟨by omega, h2, h3⟩
    | none =>
      rw [hfind] at h
      simp only [Option.none_or] at h
      have hall : ∀ k < n, p k = false := by
        intro k hk
        have := List.find?_eq_none.mp hfind k (List.mem_range.mpr hk)
        simpa using this
      cases hp : p n with
      | true =>
        rw [List.find?_cons_of_pos _ hp] at h
        obtain rfl : n = m := by injection h
        exact ⟨by omega, hp, hall⟩
      | false =>
        rw [List.find?_cons_of_neg _ (by simp [hp])] at h
        simp at h

theorem find?_range_none {p : Nat → Bool} {n : Nat} :
    (List.range n).find? p = none ↔ ∀ k < n, p k = false := by
  rw [List.find?_eq_none]
  constructor
  · intro h k hk
    simpa using h k (List.mem_range.mpr hk)
  · intro h x hx
    simp [h x (List.mem_range.mp hx)]

theorem find?_range_reverse_some {p : Nat → Bool} :
    ∀ {n m : Nat}, (List.range n).reverse.find? p = some m →
      m < n ∧ p m = true ∧ ∀ k, m < k → k < n → p k = false := by
  intro n
  induction n with
  | zero => intro m h; simp [List.range_zero] at h
  | succ n ih =>
    intro m h
    rw [List.range_succ, List.reverse_append] at h
    simp only [List.reverse_singleton, List.singleton_append] at h
    cases hp : p n with
    | true =>
      rw [List.find?_cons_of_pos _ hp] at h
      obtain rfl : n = m := by injection h
      exact ⟨by omega, hp, fun k h1 h2 => absurd h1 (by omega)⟩
    | false =>
      rw [List.find?_cons_of_neg _ (by simp [hp])] at h
      obtain ⟨h1, h2, h3⟩ := ih h
      refine ⟨by omega, h2, fun k hk1 hk2 => ?_⟩
      rcases Nat.lt_or_ge k n with hlt | hge
      · exact h3 k hk1 hlt
      · obtain rfl : k = n := by omega
        exact hp

theorem find?_range_reverse_none {p : Nat → Bool} {n : Nat} :
    (List.range n).reverse.find? p = none ↔ ∀ k < n, p k = false := by
  rw [List.find?_eq_none]
  constructor
  · intro h k hk
    simpa using h k (List.mem_reverse.mpr (List.mem_range.mpr hk))
  · intro h x hx
    simp [h x (List.mem_range.mp (List.mem_reverse.mp hx))]

theorem count_set_add {α : Type} [DecidableEq α] :
    ∀ (l : List α) (i : Nat), i < l.length → ∀ (v w d : α),
      (l.set i v).count w + (if l.getD i d = w then 1 else 0)
        = l.count w + (if v = w then 1 else 0) := by
  intro l
  induction l with
  | nil => intro i hi; simp at hi
  | cons x xs ih =>
    intro i hi v w d
    cases i with
    | zero =>
      simp only [List.set_cons_zero, List.getD_cons_zero, List.count_cons, beq_iff_eq]
      omega
    | succ i =>
      simp only [List.set_cons_succ, List.getD_cons_succ, List.count_cons, beq_iff_eq]
      have := ih i (by simpa using hi) v w d
      omega

theorem slotIdx_inj {cap : Nat} {c1 r1 c2 r2 : Nat} (h1 : r1 < cap) (h2 : r2 < cap)
    (h : c1 * cap + r1 = c2 * cap + r2) : c1 = c2 ∧ r1 = r2 := by
  have hcap : 0 < cap := by omega
  have e1 : (c1 * cap + r1) / cap = c1 := by
    rw [Nat.mul_comm c1 cap, Nat.mul_add_div hcap, Nat.div_eq_of_lt h1]
    omega
  have e2 : (c2 * cap + r2) / cap = c2 := by
    rw [Nat.mul_comm c2 cap, Nat.mul_add_div hcap, Nat.div_eq_of_lt h2]
    omega
  have hc : c1 = c2 := by rw [← e1, ← e2, h]
  subst hc
  exact ⟨rfl, by omega⟩

/-! ## Facts about `fillCols` -/

theorem length_fillCols : ∀ (n cap : Nat), (fillCols n cap).length = n * cap := by
  intro n
  induction n with
  | zero => intro cap; simp [fillCols]
  | succ n ih =>
    intro cap
    simp [fillCols, ih, Nat.succ_mul]

theorem count_fillCols_ball :
    ∀ (n cap c : Nat), (fillCols n cap).count (Slot.ball c) = if c < n then cap else 0 := by
  intro n
  induction n with
  | zero => intro cap c; simp [fillCols]
  | succ n ih =>
    intro cap c
    rw [fillCols, List.count_append, ih, List.count_replicate]
    by_cases hc : c = n
    · subst hc
      simp [Nat.lt_irrefl, Nat.lt_succ_self]
    · have : ¬ (Slot.ball n == Slot.ball c) = true := by
        simp only [beq_iff_eq, Slot.ball.injEq]
        omega
      rw [if_neg this]
      rcases Nat.lt_or_ge c n with hlt | hge
      · simp [hlt, Nat.lt_succ_of_lt hlt]
      · have hn1 : ¬ c < n := by omega
        have hn2 : ¬ c < n + 1 := by omega
        simp [hn1, hn2]

theorem count_fillCols_empty : ∀ (n cap : Nat), (fillCols n cap).count Slot.empty = 0 := by
  intro n
  induction n with
  | zero => intro cap; simp [fillCols]
  | succ n ih =>
    intro cap
    rw [fillCols, List.count_append, ih, List.count_replicate]
    simp

theorem countP_fillCols_ball :
    ∀ (n cap : Nat), (fillCols n cap).countP (fun x => x != Slot.empty) = n * cap := by
  intro n
  induction n with
  | zero => intro cap; simp [fillCols]
  | succ n ih =>
    intro cap
    rw [fillCols, List.countP_append, ih, Nat.succ_mul]
    congr 1
    rw [List.countP_eq_length.mpr]
    · exact List.length_replicate ..
    · intro a ha
      rw [List.eq_of_mem_replicate ha]
      simp

theorem fillCols_zero_cap : ∀ (n : Nat), fillCols n 0 = [] := by
  intro n
  induction n with
  | zero => rfl
  | succ n ih => simp [fillCols, ih]

/-! ## Characterizations of the query primitives -/

theorem slot_eq_getD (s : State) (row column : Nat) :
    s.slot row column = s.slots.getD (column * s.column_capacity + row) Slot.empty := by
  simp [State.slot, State.slotChecked, State.slotIdx, List.get?_eq_getElem?,
    List.getD_eq_getElem?_getD]

theorem first_ball_some {s : State} {column r : Nat} (h : s.first_ball column = some r) :
    r < s.column_capacity ∧ s.slot r column ≠ Slot.empty ∧
      ∀ k < r, s.slot k column = Slot.empty := by
  obtain ⟨h1, h2, h3⟩ := find?_range_some h
  refine ⟨h1, by simpa using h2, fun k hk => ?_⟩
  simpa using h3 k hk

theorem first_ball_none {s : State} {column : Nat} :
    s.first_ball column = none ↔ ∀ k < s.column_capacity, s.slot k column = Slot.empty := by
  rw [State.first_ball, find?_range_none]
  constructor <;> intro h k hk <;> simpa using h k hk

theorem first_empty_some {s : State} {column r : Nat} (h : s.first_empty column = some r) :
    r < s.column_capacity ∧ s.slot r column = Slot.empty ∧
      ∀ k, r < k → k < s.column_capacity → s.slot k column ≠ Slot.empty := by
  obtain ⟨h1, h2, h3⟩ := find?_range_reverse_some h
  exact ⟨h1, by simpa using h2, fun k hk1 hk2 => by simpa using h3 k hk1 hk2⟩

theorem first_empty_none {s : State} {column : Nat} :
    s.first_empty column = none ↔ ∀ k < s.column_capacity, s.slot k column ≠ Slot.empty := by
  rw [State.first_empty, find?_range_reverse_none]
  constructor <;> intro h k hk <;> simpa using h k hk

/-! ## Structure of `move_ball` -/

theorem move_ball_column_count (s : State) (fc tc : Nat) :
    (s.move_ball fc tc).column_count = s.column_count := by
  unfold State.move_ball
  split
  · rfl
  · split <;> rfl

theorem move_ball_column_capacity (s : State) (fc tc : Nat) :
    (s.move_ball fc tc).column_capacity = s.column_capacity := by
  unfold State.move_ball
  split
  · rfl
  · split <;> rfl

theorem move_ball_slots_length (s : State) (fc tc : Nat) :
    (s.move_ball fc tc).slots.length = s.slots.length := by
  unfold State.move_ball
  split
  · rfl
  · split
    · simp [State.setSlot]
    · rfl

theorem move_ball_wf {s : State} (hwf : s.wf) (fc tc : Nat) : (s.move_ball fc tc).wf := by
  unfold State.wf at hwf ⊢
  rw [move_ball_slots_length, move_ball_column_count, move_ball_column_capacity]
  exact hwf

theorem move_ball_eq {s : State} {fc tc fr tr : Nat} (hne : ¬ fc = tc)
    (hb : s.first_ball fc = some fr) (he : s.first_empty tc = some tr) :
    s.move_ball fc tc =
      { s with
        slots := (s.slots.set (s.slotIdx tr tc) (s.slot fr fc)).set
          (s.slotIdx fr fc) Slot.empty
        play_count := s.play_count + 1 } := by
  unfold State.move_ball
  rw [if_neg hne, hb, he]
  rfl

theorem slotIdx_lt {s : State} (hwf : s.wf) {row column : Nat}
    (hr : row < s.column_capacity) (hc : column < s.column_count) :
    s.slotIdx row column < s.slots.length := by
  unfold State.slotIdx
  rw [hwf]
  have h1 : column * s.column_capacity + row < (column + 1) * s.column_capacity := by
    rw [Nat.add_mul, Nat.one_mul]
    omega
  have h2 : (column + 1) * s.column_capacity ≤ s.column_count * s.column_capacity :=
    Nat.mul_le_mul_right _ (by omega)
  omega

theorem slot_move_ball {s : State} {fc tc fr tr : Nat} (hwf : s.wf)
    (hfc : fc < s.column_count) (htc : tc < s.column_count) (hne : ¬ fc = tc)
    (hb : s.first_ball fc = some fr) (he : s.first_empty tc = some tr)
    (r c : Nat) (hr : r < s.column_capacity) :
    (s.move_ball fc tc).slot r c =
      if r = fr ∧ c = fc then Slot.empty
      else if r = tr ∧ c = tc then s.slot fr fc
      else s.slot r c := by
  obtain ⟨hfr, hbne, hmin⟩ := first_ball_some hb
  obtain ⟨htr, hemp, hmax⟩ := first_empty_some he
  have hidxF : s.slotIdx fr fc < s.slots.length := slotIdx_lt hwf hfr hfc
  have hidxT : s.slotIdx tr tc < s.slots.length := slotIdx_lt hwf htr htc
  rw [move_ball_eq hne hb he]
  rw [slot_eq_getD]
  show ((s.slots.set (tc * s.column_capacity + tr) (s.slot fr fc)).set
      (fc * s.column_capacity + fr) Slot.empty).getD
      (c * s.column_capacity + r) Slot.empty = _
  by_cases h1 : r = fr ∧ c = fc
  · obtain ⟨rfl, rfl⟩ := h1
    rw [if_pos ⟨rfl, rfl⟩, getD_set_self]
    rw [List.length_set]
    exact hidxF
  · rw [if_neg h1]
    have hne1 : fc * s.column_capacity + fr ≠ c * s.column_capacity + r := by
      intro hcontra
      obtain ⟨hc1, hr1⟩ := slotIdx_inj hfr hr hcontra
      exact h1 ⟨hr1.symm, hc1.symm⟩
    rw [getD_set_ne _ hne1]
    by_cases h2 : r = tr ∧ c = tc
    · obtain ⟨rfl, rfl⟩ := h2
      rw [if_pos ⟨rfl, rfl⟩]
      exact getD_set_self _ _ hidxT _ _
    · rw [if_neg h2]
      have hne2 : tc * s.column_capacity + tr ≠ c * s.column_capacity + r := by
        intro hcontra
        obtain ⟨hc2, hr2⟩ := slotIdx_inj htr hr hcontra
        exact h2 ⟨hr2.symm, hc2.symm⟩
      rw [getD_set_ne _ hne2, ← slot_eq_getD]

theorem play_count_move_ball {s : State} {fc tc fr tr : Nat} (hne : ¬ fc = tc)
    (hb : s.first_ball fc = some fr) (he : s.first_empty tc = some tr) :
    (s.move_ball fc tc).play_count = s.play_count + 1 := by
  rw [move_ball_eq hne hb he]

theorem move_ball_noop {s : State} {fc tc : Nat}
    (h : fc = tc ∨ s.first_ball fc = none ∨ s.first_empty tc = none) :
    s.move_ball fc tc = s := by
  unfold State.move_ball
  by_cases heq : fc = tc
  · rw [if_pos heq]
  · rw [if_neg heq]
    rcases h with h | h | h
    · exact absurd h heq
    · rw [h]
    · rw [h]
      cases hsb : s.first_ball fc <;> rfl

/-! ## Claim theorems -/

/-- C1: for every well-formed board state and in-bounds columns, `move_ball`
is a no-op when `from_column = to_column`, when the source column has no
token, or when the destination is full; otherwise it moves the token at the
source's topmost occupied row into the destination's landing slot, empties
the vacated slot, increments `play_count` by exactly 1, and leaves every
other slot unchanged. -/
theorem move_ball_correct (s : State) (hwf : s.wf) (fc tc : Nat)
    (hfc : fc < s.column_count) (htc : tc < s.column_count) :
    (fc = tc → s.move_ball fc tc = s)
    ∧ (s.first_ball fc = none → s.move_ball fc tc = s)
    ∧ (s.first_empty tc = none → s.move_ball fc tc = s)
    ∧ (∀ fr tr, ¬ fc = tc → s.first_ball fc = some fr → s.first_empty tc = some tr →
        s.slot fr fc ≠ Slot.empty
        ∧ (∀ k < fr, s.slot k fc = Slot.empty)
        ∧ (s.move_ball fc tc).slot tr tc = s.slot fr fc
        ∧ (s.move_ball fc tc).slot fr fc = Slot.empty
        ∧ (s.move_ball fc tc).play_count = s.play_count + 1
        ∧ (∀ r c, r < s.column_capacity → c < s.column_count →
            ¬(r = fr ∧ c = fc) → ¬(r = tr ∧ c = tc) →
            (s.move_ball fc tc).slot r c = s.slot r c)) := by
  refine ⟨fun h => move_ball_noop (Or.inl h),
    fun h => move_ball_noop (Or.inr (Or.inl h)),
    fun h => move_ball_noop (Or.inr (Or.inr h)), ?_⟩
  intro fr tr hne hb he
  obtain ⟨hfr, hbne, hmin⟩ := first_ball_some hb
  obtain ⟨htr, hemp, hmax⟩ := first_empty_some he
  refine ⟨hbne, hmin, ?_, ?_, play_count_move_ball hne hb he, ?_⟩
  · rw [slot_move_ball hwf hfc htc hne hb he tr tc htr]
    have h1 : ¬(tr = fr ∧ tc = fc) := fun hh => hne hh.2.symm
    rw [if_neg h1, if_pos ⟨rfl, rfl⟩]
  · rw [slot_move_ball hwf hfc htc hne hb he fr fc hfr]
    rw [if_pos ⟨rfl, rfl⟩]
  · intro r c hr hc h1 h2
    rw [slot_move_ball hwf hfc htc hne hb he r c hr]
    rw [if_neg h1, if_neg h2]

/-- Witness for C1: on the 2x2 board `[Empty, Ball 5 | Empty, Empty]`, moving
from column 0 to column 1 lands `Ball 5` in row 1 of column 1. -/
theorem move_ball_correct_witness :
    (State.mk 2 2 0 [Slot.empty, Slot.ball 5, Slot.empty, Slot.empty]).wf
    ∧ ((State.mk 2 2 0 [Slot.empty, Slot.ball 5, Slot.empty, Slot.empty]).move_ball 0 1).slot 1 1
      = Slot.ball 5 := by
  refine ⟨rfl, ?_⟩
  have h := (move_ball_correct (State.mk 2 2 0 [Slot.empty, Slot.ball 5, Slot.empty, Slot.empty])
    rfl 0 1 (by decide) (by decide)).2.2.2 1 1 (by decide) (by decide) (by decide)
  exact h.2.2.1.trans (by decide)

/-- C10: for every well-formed board state and in-bounds columns, `move_ball`
preserves the multiset of slot values over the whole board: the count of
every individual slot value (each ball color, and `Empty`) is unchanged,
whether the call is a no-op or a successful move. -/
theorem move_ball_preserves_multiset (s : State) (hwf : s.wf) (fc tc : Nat)
    (hfc : fc < s.column_count) (htc : tc < s.column_count) (v : Slot) :
    (s.move_ball fc tc).slots.count v = s.slots.count v := by
  by_cases heq : fc = tc
  · rw [move_ball_noop (Or.inl heq)]
  · cases hb : s.first_ball fc with
    | none => rw [move_ball_noop (Or.inr (Or.inl hb))]
    | some fr =>
      cases he : s.first_empty tc with
      | none => rw [move_ball_noop (Or.inr (Or.inr he))]
      | some tr =>
        obtain ⟨hfr, hbne, hmin⟩ := first_ball_some hb
        obtain ⟨htr, hemp, hmax⟩ := first_empty_some he
        have hidxT : tc * s.column_capacity + tr < s.slots.length := slotIdx_lt hwf htr htc
        have hidxF : fc * s.column_capacity + fr < s.slots.length := slotIdx_lt hwf hfr hfc
        rw [move_ball_eq heq hb he]
        show ((s.slots.set (tc * s.column_capacity + tr) (s.slot fr fc)).set
          (fc * s.column_capacity + fr) Slot.empty).count v = s.slots.count v
        have hneFT : tc * s.column_capacity + tr ≠ fc * s.column_capacity + fr :=
          fun hcontra => heq (slotIdx_inj htr hfr hcontra).1.symm
        have e2 := count_set_add s.slots (tc * s.column_capacity + tr) hidxT
          (s.slot fr fc) v Slot.empty
        have e1 := count_set_add (s.slots.set (tc * s.column_capacity + tr) (s.slot fr fc))
          (fc * s.column_capacity + fr) (by rw [List.length_set]; exact hidxF)
          Slot.empty v Slot.empty
        have g1 : (s.slots.set (tc * s.column_capacity + tr) (s.slot fr fc)).getD
            (fc * s.column_capacity + fr) Slot.empty = s.slot fr fc := by
          rw [getD_set_ne _ hneFT, ← slot_eq_getD]
        have g2 : s.slots.getD (tc * s.column_capacity + tr) Slot.empty = Slot.empty := by
          rw [← slot_eq_getD]
          exact hemp
        rw [g1] at e1
        rw [g2] at e2
        split_ifs at e1 e2 <;> omega

/-- Witness for C10: a successful move on a concrete 2x2 board leaves the
count of `Ball 5` unchanged. -/
theorem move_ball_preserves_multiset_witness :
    ((State.mk 2 2 0 [Slot.empty, Slot.ball 5, Slot.empty, Slot.empty]).move_ball 0 1).slots.count
        (Slot.ball 5)
      = (State.mk 2 2 0 [Slot.empty, Slot.ball 5, Slot.empty,
          Slot.empty]).slots.count (Slot.ball 5) :=
  move_ball_preserves_multiset
    (State.mk 2 2 0 [Slot.empty, Slot.ball 5, Slot.empty, Slot.empty]) rfl 0 1
    (by decide) (by decide) (Slot.ball 5)

theorem is_winning_cond {s : State} (hcap : 1 ≤ s.column_capacity) :
    ((List.range s.column_count).all (fun col =>
      let first := s.slot 0 col
      (List.range' 1 (s.column_capacity - 1)).all (fun row => s.slot row col == first)) = true)
    ↔ ∀ col < s.column_count, ∀ r1 < s.column_capacity, ∀ r2 < s.column_capacity,
        s.slot r1 col = s.slot r2 col := by
  rw [List.all_eq_true]
  constructor
  · intro hall col hcol r1 hr1 r2 hr2
    have h := hall col (List.mem_range.mpr hcol)
    simp only [List.all_eq_true, beq_iff_eq] at h
    have key : ∀ r < s.column_capacity, s.slot r col = s.slot 0 col := by
      intro r hr
      cases r with
      | zero => rfl
      | succ n =>
        exact h (n + 1) (List.mem_range'_1.mpr ⟨by omega, by omega⟩)
    rw [key r1 hr1, key r2 hr2]
  · intro hP col hcol
    simp only [List.all_eq_true, beq_iff_eq]
    intro row hrow
    obtain ⟨h1, h2⟩ := List.mem_range'_1.mp hrow
    exact hP col (List.mem_range.mp hcol) row (by omega) 0 (by omega)

/-- C2: `is_winning` returns the current `play_count` exactly when every
column's slots are pairwise equal (including the all-Empty column), and
`none` ("not won") otherwise.  It is a pure function of the current state
(`State` has no cached win field), so it is recomputed from the current
slots at every call. -/
theorem is_winning_iff (s : State) (hcap : 1 ≤ s.column_capacity) :
    (s.is_winning = some s.play_count ↔
      ∀ col < s.column_count, ∀ r1 < s.column_capacity, ∀ r2 < s.column_capacity,
        s.slot r1 col = s.slot r2 col)
    ∧ (s.is_winning = none ↔
      ¬ ∀ col < s.column_count, ∀ r1 < s.column_capacity, ∀ r2 < s.column_capacity,
        s.slot r1 col = s.slot r2 col) := by
  unfold State.is_winning
  cases hb : (List.range s.column_count).all (fun col =>
      let first := s.slot 0 col
      (List.range' 1 (s.column_capacity - 1)).all (fun row => s.slot row col == first)) with
  | true =>
    have hP := (is_winning_cond hcap).mp hb
    rw [if_pos rfl]
    exact ⟨iff_of_true rfl hP, iff_of_false (by simp) (not_not_intro hP)⟩
  | false =>
    have hnP : ¬ ∀ col < s.column_count, ∀ r1 < s.column_capacity,
        ∀ r2 < s.column_capacity, s.slot r1 col = s.slot r2 col := by
      intro hP
      rw [(is_winning_cond hcap).mpr hP] at hb
      simp at hb
    rw [if_neg (by simp [hb])]
    exact ⟨iff_of_false (by simp) hnP, iff_of_true rfl hnP⟩

/-- Witness for C2: the sorted 2x2 board (each column monochromatic) is
winning with its play count. -/
theorem is_winning_iff_witness :
    (State.mkNew 2 2 (fillCols 1 2)).is_winning
      = some (State.mkNew 2 2 (fillCols 1 2)).play_count :=
  (is_winning_iff (State.mkNew 2 2 (fillCols 1 2)) (by decide)).1.mpr (by decide)

/-- C3: for `column_count >= 1`, `column_capacity >= 1` and any outcome of the
shuffle (any permutation `pre` of the filled region), the fresh board has
`column_count * column_capacity` slots; each color `c < column_count - 1`
appears exactly `column_capacity` times and no other color appears; the
remaining `column_capacity` slots are Empty, so the total ball count is
`(column_count - 1) * column_capacity`; `play_count` starts at 0; and the
last column is entirely Empty (the shuffle touches only the filled region). -/
theorem new_board_contents (cc cap : Nat) (hcc : 1 ≤ cc) (hcap : 1 ≤ cap)
    (pre : List Slot) (hpre : pre.Perm (fillCols (cc - 1) cap)) :
    (State.mkNew cc cap pre).slots.length = cc * cap
    ∧ (∀ c, (State.mkNew cc cap pre).slots.count (Slot.ball c)
        = if c < cc - 1 then cap else 0)
    ∧ (State.mkNew cc cap pre).slots.count Slot.empty = cap
    ∧ (State.mkNew cc cap pre).slots.countP (fun x => x != Slot.empty) = (cc - 1) * cap
    ∧ (State.mkNew cc cap pre).play_count = 0
    ∧ ∀ row < cap, (State.mkNew cc cap pre).slot row (cc - 1) = Slot.empty := by
  have hlenpre : pre.length = (cc - 1) * cap := by
    rw [hpre.length_eq, length_fillCols]
  have hsplit : cc * cap = (cc - 1) * cap + cap := by
    cases cc with
    | zero => omega
    | succ n => simp [Nat.succ_mul]
  refine ⟨?_, ?_, ?_, ?_, rfl, ?_⟩
  · show (pre ++ List.replicate (cc * cap - (cc - 1) * cap) Slot.empty).length = cc * cap
    rw [List.length_append, List.length_replicate, hlenpre]
    omega
  · intro c
    show (pre ++ List.replicate (cc * cap - (cc - 1) * cap) Slot.empty).count
      (Slot.ball c) = _
    have hrep : (List.replicate (cc * cap - (cc - 1) * cap) Slot.empty).count
        (Slot.ball c) = 0 := by
      rw [List.count_replicate, if_neg (by simp)]
    rw [List.count_append, hpre.count_eq, count_fillCols_ball, hrep, Nat.add_zero]
  · show (pre ++ List.replicate (cc * cap - (cc - 1) * cap) Slot.empty).count
      Slot.empty = cap
    rw [List.count_append, hpre.count_eq, count_fillCols_empty,
      List.count_replicate, if_pos (by simp)]
    omega
  · show (pre ++ List.replicate (cc * cap - (cc - 1) * cap) Slot.empty).countP
      (fun x => x != Slot.empty) = (cc - 1) * cap
    rw [List.countP_append, hpre.countP_eq, countP_fillCols_ball]
    have hrep : (List.replicate (cc * cap - (cc - 1) * cap) Slot.empty).countP
        (fun x => x != Slot.empty) = 0 := by
      rw [List.countP_eq_zero]
      intro a ha
      rw [List.eq_of_mem_replicate ha]
      simp
    rw [hrep, Nat.add_zero]
  · intro row hrow
    rw [slot_eq_getD]
    show (pre ++ List.replicate (cc * cap - (cc - 1) * cap) Slot.empty).getD
      ((cc - 1) * cap + row) Slot.empty = Slot.empty
    rw [List.getD_append_right _ _ _ _ (by rw [hlenpre]; omega)]
    have hidx : (cc - 1) * cap + row - pre.length = row := by
      rw [hlenpre]
      omega
    rw [hidx]
    exact getD_replicate _ _ (by omega)

/-- Witness for C3: the unshuffled 2x1 board has exactly one Empty slot. -/
theorem new_board_contents_witness :
    (State.mkNew 2 1 (fillCols 1 1)).slots.count Slot.empty = 1 :=
  (new_board_contents 2 1 (by decide) (by decide) (fillCols 1 1)
    (List.Perm.refl _)).2.2.1

/-- C5: in the `BouleApp::update` recording step, an insertion into the
ledger happens exactly when the previous state was not winning and the new
state is winning; when the old state is already winning (repeated
evaluation in the `Won` state), or the new state is not winning, the ledger
is left untouched. -/
theorem win_recorded_once_per_transition (oldState newState : Option State)
    (key : Nat × Nat) (h : History) :
    ((oldState.bind State.is_winning) = none →
      ∀ pc, (newState.bind State.is_winning) = some pc →
        updateRecord oldState newState key h = recordStep h key pc)
    ∧ ((oldState.bind State.is_winning) ≠ none →
        updateRecord oldState newState key h = h)
    ∧ ((newState.bind State.is_winning) = none →
        updateRecord oldState newState key h = h) := by
  refine ⟨?_, ?_, ?_⟩
  · intro h1 pc h2
    unfold updateRecord
    rw [if_pos h1, h2]
  · intro h1
    unfold updateRecord
    rw [if_neg h1]
  · intro h2
    unfold updateRecord
    split
    · rw [h2]
    · rfl

/-- Witness for C5: transitioning from no game to a freshly-won 2x2 board
records the play count 0 under the configuration key. -/
theorem win_recorded_once_per_transition_witness :
    updateRecord none (some (State.mkNew 2 2 (fillCols 1 2))) (2, 2) emptyHistory
      = recordStep emptyHistory (2, 2) 0 :=
  (win_recorded_once_per_transition none (some (State.mkNew 2 2 (fillCols 1 2)))
    (2, 2) emptyHistory).1 rfl 0 (by decide)

/-- C6: recording the scores 40, 25, 25, 30 (in that order) for the
configuration `(6, 7)` and then querying that configuration yields exactly
the ascending duplicate-free sequence `[25, 30, 40]`. -/
theorem history_record_idempotent_ascending :
    queryHistory
      (recordStep (recordStep (recordStep (recordStep emptyHistory (6, 7) 40)
        (6, 7) 25) (6, 7) 25) (6, 7) 30) (6, 7) = [25, 30, 40] := by
  decide

/-- C7 counterexample: on the fresh board `new(1, 2)` (one all-Empty column
of capacity 2, a reachable state), `first_empty` returns row 1, while the
Empty row nearest the open (top) end — what the claim says is returned — is
row 0.  So `first_empty` is not the Empty row nearest the top end. -/
theorem first_empty_not_nearest_top_cex :
    ([] : List Slot).Perm (fillCols (1 - 1) 2)
    ∧ (State.mkNew 1 2 []).first_empty 0 = some 1
    ∧ (State.mkNew 1 2 []).firstEmptyNearestTop 0 = some 0
    ∧ (1 : Nat) ≠ 0 := by
  refine ⟨List.Perm.refl _, ?_, ?_, ?_⟩ <;> decide

/-- C7 (amended): `first_empty(column)` returns the Empty row nearest the
closed (bottom) end — the largest row index holding Empty, which under the
gravity discipline is the landing slot for a pushed token — and returns
`none` exactly when the column is full. -/
theorem first_empty_landing_slot (s : State) (column : Nat) :
    (s.first_empty column = none ↔
      ∀ r < s.column_capacity, s.slot r column ≠ Slot.empty)
    ∧ (∀ r, s.first_empty column = some r →
        r < s.column_capacity ∧ s.slot r column = Slot.empty ∧
          ∀ k, r < k → k < s.column_capacity → s.slot k column ≠ Slot.empty) :=
  ⟨first_empty_none, fun _ h => first_empty_some h⟩

/-- Witness for C7 (amended): on `new(1, 2)`, `first_empty` returns row 1
and that row is indeed Empty. -/
theorem first_empty_landing_slot_witness :
    (State.mkNew 1 2 []).slot 1 0 = Slot.empty :=
  (((first_empty_landing_slot (State.mkNew 1 2 []) 0).2 1 (by decide)).2).1

/-- C8 counterexample: `State::new(0, 5)` is not rejected — it returns a
degenerate board with zero slots (the empty list is the only shuffle
outcome of the empty filled region).  Construction has no error channel at
all: it always produces a `State`. -/
theorem new_zero_columns_not_rejected_cex :
    ([] : List Slot).Perm (fillCols (0 - 1) 5)
    ∧ State.mkNew 0 5 []
      = { column_count := 0, column_capacity := 5, play_count := 0, slots := [] } := by
  exact ⟨List.Perm.refl _, rfl⟩

/-- C8 (amended): construction with `column_count < 1` or
`column_capacity < 1` is not rejected with an error; it silently produces a
degenerate board with an empty slot vector and `play_count = 0`. -/
theorem new_invalid_config_degenerate (cc cap : Nat) (pre : List Slot)
    (hpre : pre.Perm (fillCols (cc - 1) cap)) (hinv : cc < 1 ∨ cap < 1) :
    State.mkNew cc cap pre
      = { column_count := cc, column_capacity := cap, play_count := 0, slots := [] } := by
  have hpre0 : pre = [] := by
    rcases hinv with hcc | hcap
    · have h0 : cc = 0 := by omega
      subst h0
      exact List.Perm.eq_nil hpre
    · have h0 : cap = 0 := by omega
      subst h0
      rw [fillCols_zero_cap] at hpre
      exact List.Perm.eq_nil hpre
  subst hpre0
  unfold State.mkNew
  have htail : cc * cap - (cc - 1) * cap = 0 := by
    rcases hinv with hcc | hcap
    · have h0 : cc = 0 := by omega
      subst h0
      simp
    · have h0 : cap = 0 := by omega
      subst h0
      simp
  rw [htail]
  rfl

/-- Witness for C8 (amended): `new(3, 0)` silently yields the degenerate
empty board. -/
theorem new_invalid_config_degenerate_witness :
    State.mkNew 3 0 []
      = { column_count := 3, column_capacity := 0, play_count := 0, slots := [] } :=
  new_invalid_config_degenerate 3 0 []
    (by rw [fillCols_zero_cap]) (Or.inr (by decide))

/-- C9 counterexample: on the well-formed fresh board `new(1, 1)`, the
out-of-range column index 1 makes `State::slot(0, 1)` read `slots[1]` in a
vector of length 1 — an index-out-of-bounds panic (modelled by
`slotChecked = none`).  So the core operations do not complete without
panicking on arbitrary out-of-range indices. -/
theorem slot_out_of_range_panics_cex :
    ([] : List Slot).Perm (fillCols (1 - 1) 1)
    ∧ (State.mkNew 1 1 []).wf
    ∧ (State.mkNew 1 1 []).slotChecked 0 1 = none := by
  refine ⟨List.Perm.refl _, rfl, rfl⟩

/-- C9 (amended): for a well-formed board and in-bounds indices, every slot
access is within the vector, so `slot` — and with it `is_top`, `first_ball`,
`first_empty` and `move_ball`, which only read and write cells with
`row < column_capacity` in their argument columns — completes without
panicking; out-of-range column or row indices can panic and are neither
clamped nor rejected. -/
theorem slot_in_bounds_no_panic (s : State) (hwf : s.wf) (row column : Nat)
    (hr : row < s.column_capacity) (hc : column < s.column_count) :
    s.slotChecked row column = some (s.slot row column) := by
  have hidx : s.slotIdx row column < s.slots.length := slotIdx_lt hwf hr hc
  unfold State.slot State.slotChecked
  rw [List.get?_eq_getElem?, List.getElem?_eq_getElem hidx]
  rfl

/-- Witness for C9 (amended): an in-bounds read on a fresh 2x1 board does
not panic. -/
theorem slot_in_bounds_no_panic_witness :
    (State.mkNew 2 1 (fillCols 1 1)).slotChecked 0 1
      = some ((State.mkNew 2 1 (fillCols 1 1)).slot 0 1) :=
  slot_in_bounds_no_panic (State.mkNew 2 1 (fillCols 1 1)) rfl 0 1
    (by decide) (by decide)

theorem mkNew_slot (cc cap : Nat) (pre : List Slot) (row column : Nat) :
    (State.mkNew cc cap pre).slot row column
      = (pre ++ List.replicate (cc * cap - (cc - 1) * cap) Slot.empty).getD
          (column * cap + row) Slot.empty := by
  rw [slot_eq_getD]
  rfl

theorem mkNew_wf (cc cap : Nat) (pre : List Slot)
    (hpre : pre.Perm (fillCols (cc - 1) cap)) : (State.mkNew cc cap pre).wf := by
  have hlenpre : pre.length = (cc - 1) * cap := by
    rw [hpre.length_eq, length_fillCols]
  have hle : (cc - 1) * cap ≤ cc * cap := Nat.mul_le_mul_right _ (Nat.sub_le _ _)
  show (pre ++ List.replicate (cc * cap - (cc - 1) * cap) Slot.empty).length = cc * cap
  rw [List.length_append, List.length_replicate, hlenpre]
  omega

theorem gravity_base (cc cap : Nat) (pre : List Slot)
    (hpre : pre.Perm (fillCols (cc - 1) cap)) : GravityInv (State.mkNew cc cap pre) := by
  have hlenpre : pre.length = (cc - 1) * cap := by
    rw [hpre.length_eq, length_fillCols]
  have hnoempty : Slot.empty ∉ pre := by
    have hcnt := hpre.count_eq Slot.empty
    rw [count_fillCols_empty] at hcnt
    exact List.count_eq_zero.mp hcnt
  intro col hcol r1 r2 h12 hr2 hne1
  have hcol' : col < cc := hcol
  have hr2' : r2 < cap := hr2
  rcases Nat.lt_or_ge col (cc - 1) with hlt | hge
  · -- the column lies inside the shuffled region: every slot there is a ball
    have hidx2 : col * cap + r2 < pre.length := by
      rw [hlenpre]
      have ha : col * cap + r2 < (col + 1) * cap := by
        rw [Nat.add_mul, Nat.one_mul]
        omega
      have hb2 : (col + 1) * cap ≤ (cc - 1) * cap :=
        Nat.mul_le_mul_right _ (by omega)
      omega
    rw [mkNew_slot]
    rw [List.getD_append _ _ _ _ hidx2]
    rw [List.getD_eq_getElem _ _ hidx2]
    intro hcontra
    exact hnoempty (hcontra ▸ List.getElem_mem hidx2)
  · -- the last column: all Empty, so the hypothesis slot is already Empty
    have hccpos : 1 ≤ cc := by omega
    have hcole : col = cc - 1 := by omega
    subst hcole
    exfalso
    apply hne1
    have hr1' : r1 < cap := by omega
    have hsplit : cc * cap = (cc - 1) * cap + cap := by
      cases cc with
      | zero => omega
      | succ n => simp [Nat.succ_mul]
    rw [mkNew_slot]
    rw [List.getD_append_right _ _ _ _ (by rw [hlenpre]; omega)]
    have hidx : (cc - 1) * cap + r1 - pre.length = r1 := by
      rw [hlenpre]
      omega
    rw [hidx]
    exact getD_replicate _ _ (by omega)

theorem gravity_step (s : State) (hwf : s.wf) (hg : GravityInv s) (fc tc : Nat)
    (hfc : fc < s.column_count) (htc : tc < s.column_count) :
    GravityInv (s.move_ball fc tc) := by
  by_cases heq : fc = tc
  · rw [move_ball_noop (Or.inl heq)]
    exact hg
  · cases hb : s.first_ball fc with
    | none =>
      rw [move_ball_noop (Or.inr (Or.inl hb))]
      exact hg
    | some fr =>
      cases he : s.first_empty tc with
      | none =>
        rw [move_ball_noop (Or.inr (Or.inr he))]
        exact hg
      | some tr =>
        obtain ⟨hfr, hbne, hmin⟩ := first_ball_some hb
        obtain ⟨htr, hemp, hmax⟩ := first_empty_some he
        intro col hcol r1 r2 h12 hr2 hne1
        have hcol' : col < s.column_count := by
          rw [move_ball_column_count] at hcol
          exact hcol
        have hr2' : r2 < s.column_capacity := by
          rw [move_ball_column_capacity] at hr2
          exact hr2
        have hr1' : r1 < s.column_capacity := by omega
        rw [slot_move_ball hwf hfc htc heq hb he r1 col hr1'] at hne1
        rw [slot_move_ball hwf hfc htc heq hb he r2 col hr2']
        by_cases e1 : r1 = fr ∧ col = fc
        · rw [if_pos e1] at hne1
          exact absurd rfl hne1
        · rw [if_neg e1] at hne1
          by_cases e2 : r1 = tr ∧ col = tc
          · rw [if_pos e2] at hne1
            have g1 : ¬(r2 = fr ∧ col = fc) := fun hh => heq (hh.2 ▸ e2.2)
            rw [if_neg g1]
            by_cases g2 : r2 = tr
            · rw [if_pos ⟨g2, e2.2⟩]
              exact hbne
            · rw [if_neg (fun hh => g2 hh.1)]
              have he2a := e2.1
              have htlt : tr < r2 := by omega
              rw [e2.2]
              exact hmax r2 htlt hr2'
          · rw [if_neg e2] at hne1
            by_cases e3 : r2 = fr ∧ col = fc
            · exfalso
              obtain ⟨he3a, he3b⟩ := e3
              have hr1fr : r1 ≠ fr := fun hh => e1 ⟨hh, he3b⟩
              have hlt : r1 < fr := by omega
              apply hne1
              rw [he3b]
              exact hmin r1 hlt
            · rw [if_neg e3]
              by_cases e4 : r2 = tr ∧ col = tc
              · rw [if_pos e4]
                exact hbne
              · rw [if_neg e4]
                exact hg col hcol' r1 r2 h12 hr2' hne1

theorem reachable_inv : ∀ s : State, Reachable s → s.wf ∧ GravityInv s := by
  intro s h
  induction h with
  | base cc cap pre hpre => exact ⟨mkNew_wf cc cap pre hpre, gravity_base cc cap pre hpre⟩
  | step s fc tc hf ht hs ih =>
    exact ⟨move_ball_wf ih.1 fc tc, gravity_step s ih.1 ih.2 fc tc hf ht⟩

/-- C4: in every board state reachable from a fresh board by in-bounds
`move_ball` calls, each column's non-empty slots form a contiguous run
ending at the bottom (largest row indices): a non-empty slot at row `r1`
forces every deeper in-bounds row `r2 >= r1` to be non-empty, so Empty slots
occur only at the open end above the topmost ball. -/
theorem reachable_gravity (s : State) (h : Reachable s) :
    ∀ col < s.column_count, ∀ r1 r2 : Nat, r1 ≤ r2 → r2 < s.column_capacity →
      s.slot r1 col ≠ Slot.empty → s.slot r2 col ≠ Slot.empty :=
  (reachable_inv s h).2

/-- Witness for C4: on the fresh sorted 2x2 board, row 0 of column 0 being
occupied forces row 1 of column 0 to be occupied. -/
theorem reachable_gravity_witness :
    (State.mkNew 2 2 (fillCols 1 2)).slot 1 0 ≠ Slot.empty :=
  reachable_gravity (State.mkNew 2 2 (fillCols 1 2))
    (Reachable.base 2 2 (fillCols 1 2) (List.Perm.refl _)) 0 (by decide) 0 1
    (by decide) (by decide) (by decide)
